import Mathlib

/-!
Verification of the markdown parsing and HTML conversion core.

The Rust sources are embedded shallowly:
  - Rust string slices are modelled as lists of characters (all operations the
    code performs on the relevant inputs are ASCII-aligned, so byte indices and
    character indices coincide).
  - a fallible Rust computation that can panic is modelled as
    Except Unit A, where Except.error () stands for a panic and Except.ok
    carries the ordinary result; parser rules thus have result type
    Except Unit (Option (ParsedResult T)), with Except.ok none standing for
    the no-match result.
  - the while loop of the body-row collector is modelled with explicit fuel;
    the wrapper passes one unit of fuel more than the length of the remaining
    input, which is enough because every successful row parse consumes at
    least one character (recordsAux_fuel below makes this precise).
-/

namespace MdApp

/-- Characters of a Rust string slice, one entry per character. -/
abbrev Str := List Char

/-- Whitespace predicate used by the trim functions of the Rust standard
library, restricted to the ASCII range that all inputs here live in. -/
def isWhitespaceChar (c : Char) : Bool :=
  c = ' ' || c = '\t' || c = '\n' || c = '\x0b' || c = '\x0c' || c = '\r'

/-- Embeds str::trim_start. -/
def trimStart (s : Str) : Str := s.dropWhile isWhitespaceChar

/-- Embeds str::trim_end. -/
def trimEnd (s : Str) : Str := (s.reverse.dropWhile isWhitespaceChar).reverse

/-- Embeds str::trim. -/
def trim (s : Str) : Str := trimEnd (trimStart s)

/-- Embeds str::starts_with for a string pattern. -/
def starts_with (text pattern : Str) : Bool := pattern.isPrefixOf text

/-- Embeds str::ends_with for a string pattern. -/
def ends_with (text pattern : Str) : Bool := pattern.isSuffixOf text

/-- Embeds byte slicing text[a..b]: Except.error () models the Rust panic that
is raised when the range is inverted or past the end of the string. -/
def rustSlice (s : Str) (a b : Nat) : Except Unit Str :=
  if a ≤ b && b ≤ s.length then .ok ((s.take b).drop a) else .error ()

/-- Embeds fn consume of parser.rs: match a literal pattern at the front and
return the remainder after it. -/
def consume (text pattern : Str) : Option Str :=
  if starts_with text pattern then some (text.drop pattern.length) else none

/-- Embeds fn space of parser.rs: consume one literal space, then strip any
further leading whitespace. -/
def space (text : Str) : Option Str :=
  match consume text [' '] with
  | none => none
  | some text => some (trimStart text)

/-- Modelled from the spec: split_first_pattern is defined outside the
reviewed sources. Section 4.3 describes the single use site: the candidate
line is the text up to and excluding the first newline (or the end of input),
and the rest is everything after that newline. -/
def split_first_pattern (texts : Str) (p : Char) : Str × Str :=
  (texts.takeWhile (fun c => c ≠ p), (texts.dropWhile (fun c => c ≠ p)).drop 1)

/-- Embeds enum Word of parser.rs. -/
inductive Word where
  | Normal : Str → Word
  | Italic : List Word → Word
  | Bold : List Word → Word
  | StrikeThough : List Word → Word
  | Underline : List Word → Word

/-- Embeds struct Words(pub Vec of Word) of parser.rs; val is the tuple
field .0. -/
structure Words where
  val : List Word

/-- Embeds struct Record(pub Vec of Words) of parser.rs; val is the tuple
field .0. -/
structure Record where
  val : List Words

/-- Embeds enum Align of parser.rs. -/
inductive Align where
  | Right
  | Center
  | Left
deriving DecidableEq

/-- Embeds struct Table of parser.rs. -/
structure Table where
  header : Record
  align : List Align
  records : List Record

/-- Embeds enum List of parser.rs (renamed: List is taken by the Lean
prelude). It is declared by the data model but produced by no grammar rule. -/
inductive MList where
  | Item : Words → MList
  | Items : Words → List MList → MList

/-- Embeds enum Md of parser.rs. The Rust Table variant boxes its payload;
the box is transparent here. -/
inductive Md where
  | Heading : Nat → List Word → Md
  | Sentence : List Word → Md
  | Table : Table → Md
  | List : List MList → Md

/-- Embeds struct ParsedResult of parser.rs. -/
structure ParsedResult (T : Type) where
  token : T
  rest : Str

/-- Modelled from the spec: fn words of sentence.rs (the Inline Word Grammar)
is defined outside the reviewed sources. Per section 4.2 it is a total
function that always succeeds, and per section 8 a text containing no
delimiter characters yields the single Plain span wrapping that text. The
table-grammar and segmenter facts proved below depend only on totality and on
the shape of the result for delimiter-free cells, so the delimiter-parsing
part of the grammar is not modelled: every cell is embedded in its
degenerate single-span form. -/
def words (text : Str) : Words := ⟨[Word.Normal text]⟩

/-- The closure passed to fn record by fn header and fn records of table.rs;
it cannot panic. -/
def wordsClosure (text : Str) : Except Unit Words := .ok (words text)

/-- Embeds fn record of table.rs, generic over the cell-decoding closure.
The closure result is an Except so that a panic inside a cell decoder
propagates exactly as it does through Rust's map-and-collect. -/
def record {T : Type} (texts : Str) (closure : Str → Except Unit T) :
    Except Unit (Option (ParsedResult (List T))) :=
  let p := split_first_pattern texts '\n'
  let text := trimEnd p.1
  if !starts_with text ['|'] || !ends_with text ['|'] then .ok none
  else
    match rustSlice text 1 (text.length - 1) with
    | .error _ => .error ()
    | .ok inner =>
      match (inner.splitOn '|').mapM (fun cell => closure (trim cell)) with
      | .error _ => .error ()
      | .ok token => .ok (some ⟨token, p.2⟩)

/-- Embeds fn header of table.rs. -/
def header (texts : Str) : Except Unit (Option (ParsedResult Record)) :=
  match record texts wordsClosure with
  | .error _ => .error ()
  | .ok none => .ok none
  | .ok (some cells) => .ok (some ⟨⟨cells.token⟩, cells.rest⟩)

/-- Embeds the is_only_hyphen closure of fn align_parse of table.rs: the set
of characters of the text is the one-element set containing the hyphen. -/
def is_only_hyphen (text : Str) : Bool :=
  let chars := text.toFinset
  decide (chars.card = 1) && decide ('-' ∈ chars)

/-- Embeds fn align_parse of table.rs. The arm for a leading and a trailing
colon slices text[1..len-1], which panics when the text is the single
character colon; the other two slicing arms are always in bounds but are
routed through rustSlice as in the source. -/
def align_parse (text : Str) : Except Unit (Option Align) :=
  let l := starts_with text [':']
  let r := ends_with text [':']
  match l, r with
  | false, false => .ok (if is_only_hyphen text then some Align.Left else none)
  | false, true =>
    match rustSlice text 0 (text.length - 1) with
    | .error _ => .error ()
    | .ok core => .ok (if is_only_hyphen core then some Align.Right else none)
  | true, false =>
    match rustSlice text 1 text.length with
    | .error _ => .error ()
    | .ok core => .ok (if is_only_hyphen core then some Align.Left else none)
  | true, true =>
    match rustSlice text 1 (text.length - 1) with
    | .error _ => .error ()
    | .ok core => .ok (if is_only_hyphen core then some Align.Center else none)

/-- The closure passed to fn record by fn align of table.rs. -/
def alignClosure (text : Str) : Except Unit (Option Align) :=
  align_parse (trim text)

/-- Embeds fn align of table.rs: decode the row with align_parse, drop the
cells that failed to decode, and require the remaining count to equal the
header's column count. -/
def align (texts : Str) (num : Nat) :
    Except Unit (Option (ParsedResult (List Align))) :=
  match record texts alignClosure with
  | .error _ => .error ()
  | .ok none => .ok none
  | .ok (some result) =>
    let aligns := result.token.filterMap id
    if aligns.length ≠ num then .ok none
    else .ok (some ⟨aligns, result.rest⟩)

/-- Embeds the while loop of fn records of table.rs. One fuel unit is spent
per iteration; records below passes more fuel than the loop can spend. Note
the loop advances texts to result.rest before comparing the cell count with
n, so a row that parses but has the wrong cell count is consumed even though
it is not collected. -/
def recordsAux (fuel : Nat) (texts : Str) (n : Nat) :
    Except Unit (List Record × Str) :=
  match fuel with
  | 0 => .ok ([], texts)
  | fuel + 1 =>
    match record texts wordsClosure with
    | .error _ => .error ()
    | .ok none => .ok ([], texts)
    | .ok (some result) =>
      if result.token.length ≠ n then .ok ([], result.rest)
      else
        match recordsAux fuel result.rest n with
        | .error _ => .error ()
        | .ok (rs, rest) => .ok (⟨result.token⟩ :: rs, rest)

/-- Embeds fn records of table.rs: run the loop, then fail when no body row
was collected. -/
def records (texts : Str) (n : Nat) :
    Except Unit (Option (ParsedResult (List Record))) :=
  match recordsAux (texts.length + 1) texts n with
  | .error _ => .error ()
  | .ok (rs, rest) =>
    if rs.isEmpty then .ok none else .ok (some ⟨rs, rest⟩)

/-- Embeds fn record_len of table.rs. -/
def record_len (record : Record) : Nat :=
  match record with
  | ⟨r⟩ => r.length

/-- Embeds fn table of table.rs. -/
def table (texts : Str) : Except Unit (Option (ParsedResult Md)) :=
  match header texts with
  | .error _ => .error ()
  | .ok none => .ok none
  | .ok (some header_result) =>
    let column_num := record_len header_result.token
    match align header_result.rest column_num with
    | .error _ => .error ()
    | .ok none => .ok none
    | .ok (some align_result) =>
      match records align_result.rest column_num with
      | .error _ => .error ()
      | .ok none => .ok none
      | .ok (some records_result) =>
        .ok (some ⟨Md.Table ⟨header_result.token, align_result.token,
          records_result.token⟩, records_result.rest⟩)

/-- Modelled from the spec: fn heading of heading.rs is defined outside the
reviewed sources. Per sections 4.4 and 6 it recognizes a leading run of one
or more hash characters followed by a mandatory space (the space handled as
by fn space, which also strips further whitespace), consumes one line, and
wraps the Inline Word Grammar result of the remainder of the line. -/
def heading (texts : Str) : Except Unit (Option (ParsedResult Md)) :=
  let p := split_first_pattern texts '\n'
  let level := (p.1.takeWhile (fun c => c = '#')).length
  if level = 0 then .ok none
  else
    match space (p.1.drop level) with
    | none => .ok none
    | some content => .ok (some ⟨Md.Heading level (words content).val, p.2⟩)

/-- Modelled from the spec: fn sentence of sentence.rs is defined outside the
reviewed sources. Per section 6 it consumes exactly one line, fails only on
empty remaining input, and wraps the Inline Word Grammar result of the
line. -/
def sentence (texts : Str) : Except Unit (Option (ParsedResult Md)) :=
  match texts with
  | [] => .ok none
  | _ =>
    let p := split_first_pattern texts '\n'
    .ok (some ⟨Md.Sentence (words p.1).val, p.2⟩)

/-- Embeds the find_map over the parser vector of fn parse of parser.rs:
table first, then heading, then sentence. -/
def tryParsers (texts : Str) : Except Unit (Option (ParsedResult Md)) :=
  match table texts with
  | .error _ => .error ()
  | .ok (some r) => .ok (some r)
  | .ok none =>
    match heading texts with
    | .error _ => .error ()
    | .ok (some r) => .ok (some r)
    | .ok none => sentence texts

/-- Embeds the while loop of fn parse of parser.rs, with explicit fuel; one
unit is spent per collected document node. Every successful parser strictly
consumes input, so the wrapper's fuel allowance is never exhausted before the
loop stops on its own (this is made precise by the segmenter theorems
below). -/
def parseAux (fuel : Nat) (texts : Str) : Except Unit (List Md) :=
  match fuel with
  | 0 => .ok []
  | fuel + 1 =>
    match tryParsers texts with
    | .error _ => .error ()
    | .ok none => .ok []
    | .ok (some r) =>
      match parseAux fuel r.rest with
      | .error _ => .error ()
      | .ok mds => .ok (r.token :: mds)

/-- Embeds fn parse of parser.rs. -/
def parse (texts : Str) : Except Unit (List Md) :=
  parseAux (texts.length + 1) texts

/-- Embeds fn convert_words (and through the singleton case fn convert_word)
of convert.rs. The Rust function folds the per-word fragments left to right
starting from the empty string; over string concatenation that fold equals
the right-to-left concatenation used here, which Lean accepts as a
definition over the nested Word tree. -/
def convert_words : List Word → Str
  | [] => []
  | Word.Normal val :: ws => val ++ convert_words ws
  | Word.Italic cs :: ws =>
    "<i>".toList ++ convert_words cs ++ "</i>".toList ++ convert_words ws
  | Word.Bold cs :: ws =>
    "<b>".toList ++ convert_words cs ++ "</b>".toList ++ convert_words ws
  | Word.StrikeThough cs :: ws =>
    "<s>".toList ++ convert_words cs ++ "</s>".toList ++ convert_words ws
  | Word.Underline cs :: ws =>
    "<u>".toList ++ convert_words cs ++ "</u>".toList ++ convert_words ws

/-- Embeds fn convert_word of convert.rs: the fragment of one word. -/
def convert_word (w : Word) : Str := convert_words [w]

/-- Embeds fn convert_header of convert.rs. -/
def convert_header (record : Record) : Str :=
  record.val.foldl
    (fun html ws => html ++ "<th>".toList ++ convert_words ws.val ++ "</th>".toList)
    []

/-- Embeds fn convert_record of convert.rs: the body-row cells are zipped
with the alignment list, so each emitted td element pairs one cell with one
alignment and cells without a positional alignment are dropped by zip. -/
def convert_record (record : Record) (aligns : List Align) : Str :=
  (record.val.zip aligns).foldl
    (fun html x =>
      let a := match x.2 with
        | Align.Right => "right".toList
        | Align.Center => "center".toList
        | Align.Left => "left".toList
      html ++ "<td align=\"".toList ++ a ++ "\">".toList
        ++ convert_words x.1.val ++ "</td>".toList)
    []

/-- Embeds fn convert_records of convert.rs. -/
def convert_records (records : List Record) (aligns : List Align) : Str :=
  records.foldl
    (fun html record =>
      html ++ "<tr>".toList ++ convert_record record aligns ++ "</tr>\n".toList)
    []

/-- Embeds fn convert_table of convert.rs. -/
def convert_table (table : Table) : Str :=
  "<table>\n".toList ++ "<tr>".toList ++ convert_header table.header
    ++ "</tr>".toList ++ "\n".toList
    ++ convert_records table.records table.align ++ "</table>\n".toList

/-- Embeds fn to_html of convert.rs. The wildcard arm is the Rust
panic invocation, reached by the Table and List variants. -/
def to_html (md : Md) : Except Unit Str :=
  match md with
  | Md.Heading size ws =>
    .ok ("<h".toList ++ (Nat.repr size).toList ++ ">".toList
      ++ convert_words ws ++ "</h".toList ++ (Nat.repr size).toList ++ ">".toList)
  | Md.Sentence ws => .ok (convert_words ws)
  | _ => .error ()

/-- The list of td fragments that the convert_record fold emits, one per
zipped cell-alignment pair. -/
def tdCells (record : Record) (aligns : List Align) : List Str :=
  (record.val.zip aligns).map
    (fun x =>
      let a := match x.2 with
        | Align.Right => "right".toList
        | Align.Center => "center".toList
        | Align.Left => "left".toList
      "<td align=\"".toList ++ a ++ "\">".toList
        ++ convert_words x.1.val ++ "</td>".toList)

/-- Concatenation of a list of strings. -/
def concatStrs : List Str → Str
  | [] => []
  | s :: ss => s ++ concatStrs ss

/-! Helper lemmas about the line splitter and the row primitive. -/

theorem split_snd_suffix (texts : Str) (p : Char) :
    (split_first_pattern texts p).2 <:+ texts :=
  ((texts.dropWhile (fun c => c ≠ p)).drop_suffix 1).trans
    (texts.dropWhile_suffix _)

theorem split_snd_lt (texts : Str) (p : Char) (h : texts ≠ []) :
    (split_first_pattern texts p).2.length < texts.length := by
  have hle : (texts.dropWhile (fun c => c ≠ p)).length ≤ texts.length :=
    (texts.dropWhile_suffix _).length_le
  have hpos : 0 < texts.length := List.length_pos.mpr h
  simp only [split_first_pattern, List.length_drop]
  omega

theorem record_nil {T : Type} (closure : Str → Except Unit T) :
    record ([] : Str) closure = .ok none := rfl

theorem record_rest_eq {T : Type} {texts : Str} {closure : Str → Except Unit T}
    {r : ParsedResult (List T)} (h : record texts closure = .ok (some r)) :
    r.rest = (split_first_pattern texts '\n').2 := by
  simp only [record] at h
  split at h
  · exact absurd h (by simp)
  · split at h
    · exact absurd h (by simp)
    · split at h
      · exact absurd h (by simp)
      · simp only [Except.ok.injEq, Option.some.injEq] at h
        subst h
        rfl

theorem record_texts_ne_nil {T : Type} {texts : Str}
    {closure : Str → Except Unit T} {r : ParsedResult (List T)}
    (h : record texts closure = .ok (some r)) : texts ≠ [] := by
  intro he
  subst he
  rw [record_nil] at h
  exact absurd h (by simp)

theorem record_rest_lt {T : Type} {texts : Str}
    {closure : Str → Except Unit T} {r : ParsedResult (List T)}
    (h : record texts closure = .ok (some r)) :
    r.rest.length < texts.length ∧ r.rest <:+ texts := by
  rw [record_rest_eq h]
  exact ⟨split_snd_lt _ _ (record_texts_ne_nil h), split_snd_suffix _ _⟩

/-! Helper lemmas about fn header and fn align. -/

theorem header_elim {texts : Str} {hr : ParsedResult Record}
    (h : header texts = .ok (some hr)) :
    ∃ cells, record texts wordsClosure = .ok (some cells) ∧
      hr = ⟨⟨cells.token⟩, cells.rest⟩ := by
  simp only [header] at h
  split at h
  · exact absurd h (by simp)
  · exact absurd h (by simp)
  · next cells heq =>
      simp only [Except.ok.injEq, Option.some.injEq] at h
      exact ⟨cells, heq, h.symm⟩

theorem align_elim {texts : Str} {num : Nat} {ar : ParsedResult (List Align)}
    (h : align texts num = .ok (some ar)) :
    ∃ result, record texts alignClosure = .ok (some result) ∧
      ar = ⟨result.token.filterMap id, result.rest⟩ ∧
      (result.token.filterMap id).length = num := by
  simp only [align] at h
  split at h
  · exact absurd h (by simp)
  · exact absurd h (by simp)
  · next result heq =>
      split at h
      · exact absurd h (by simp)
      · next hlen =>
          simp only [Except.ok.injEq, Option.some.injEq] at h
          exact ⟨result, heq, h.symm, by omega⟩

theorem align_intro {texts : Str} {num : Nat} {result : ParsedResult (List (Option Align))}
    (hrec : record texts alignClosure = .ok (some result))
    (hlen : (result.token.filterMap id).length = num) :
    align texts num = .ok (some ⟨result.token.filterMap id, result.rest⟩) := by
  simp only [align, hrec]
  simp [hlen]

/-! Helper lemmas about the body-row loop. -/

theorem recordsAux_rest {fuel : Nat} {texts : Str} {n : Nat}
    {rs : List Record} {rest : Str}
    (h : recordsAux fuel texts n = .ok (rs, rest)) :
    rest.length ≤ texts.length ∧ rest <:+ texts := by
  induction fuel generalizing texts rs rest with
  | zero =>
    simp only [recordsAux, Except.ok.injEq, Prod.mk.injEq] at h
    rw [← h.2]
    exact ⟨le_refl _, List.suffix_refl _⟩
  | succ fuel ih =>
    simp only [recordsAux] at h
    split at h
    · exact absurd h (by simp)
    · simp only [Except.ok.injEq, Prod.mk.injEq] at h
      rw [← h.2]
      exact ⟨le_refl _, List.suffix_refl _⟩
    · next result heq =>
        split at h
        · simp only [Except.ok.injEq, Prod.mk.injEq] at h
          rw [← h.2]
          have := record_rest_lt heq
          exact ⟨le_of_lt this.1, this.2⟩
        · split at h
          · exact absurd h (by simp)
          · next rs2 rest2 heq2 =>
              simp only [Except.ok.injEq, Prod.mk.injEq] at h
              rw [← h.2]
              have h1 := ih heq2
              have h2 := record_rest_lt heq
              exact ⟨le_trans h1.1 (le_of_lt h2.1), h1.2.trans h2.2⟩

theorem recordsAux_lengths {fuel : Nat} {texts : Str} {n : Nat}
    {rs : List Record} {rest : Str}
    (h : recordsAux fuel texts n = .ok (rs, rest)) :
    ∀ rec ∈ rs, rec.val.length = n := by
  induction fuel generalizing texts rs rest with
  | zero =>
    simp only [recordsAux, Except.ok.injEq, Prod.mk.injEq] at h
    rw [← h.1]
    intro rec hrec
    exact absurd hrec (List.not_mem_nil rec)
  | succ fuel ih =>
    simp only [recordsAux] at h
    split at h
    · exact absurd h (by simp)
    · simp only [Except.ok.injEq, Prod.mk.injEq] at h
      rw [← h.1]
      intro rec hrec
      exact absurd hrec (List.not_mem_nil rec)
    · next result heq =>
        split at h
        · simp only [Except.ok.injEq, Prod.mk.injEq] at h
          rw [← h.1]
          intro rec hrec
          exact absurd hrec (List.not_mem_nil rec)
        · next hlen =>
            split at h
            · exact absurd h (by simp)
            · next rs2 rest2 heq2 =>
                simp only [Except.ok.injEq, Prod.mk.injEq] at h
                rw [← h.1]
                intro rec hrec
                rcases List.mem_cons.mp hrec with hrec | hrec
                · rw [hrec]
                  show result.token.length = n
                  omega
                · exact ih heq2 rec hrec

theorem recordsAux_fuel {f1 : Nat} : ∀ {f2 : Nat} {texts : Str} {n : Nat},
    texts.length < f1 → texts.length < f2 →
    recordsAux f1 texts n = recordsAux f2 texts n := by
  induction f1 with
  | zero =>
    intro f2 texts n h1 h2
    exact absurd h1 (by omega)
  | succ f1 ih =>
    intro f2 texts n h1 h2
    match f2, h2 with
    | f2 + 1, h2 =>
      simp only [recordsAux]
      split
      · rfl
      · rfl
      · next result heq =>
          split
          · rfl
          · have hlt := record_rest_lt heq
            have hih : recordsAux f1 result.rest n = recordsAux f2 result.rest n := by
              apply ih
              · have := hlt.1
                omega
              · have := hlt.1
                omega
            rw [hih]

theorem records_elim {texts : Str} {n : Nat} {res : ParsedResult (List Record)}
    (h : records texts n = .ok (some res)) :
    res.token ≠ [] ∧ (∀ rec ∈ res.token, rec.val.length = n) ∧
      res.rest.length < texts.length ∧ res.rest <:+ texts := by
  simp only [records] at h
  split at h
  · exact absurd h (by simp)
  · next rs rest heq =>
      split at h
      · exact absurd h (by simp)
      · next hne =>
          simp only [Except.ok.injEq, Option.some.injEq] at h
          subst h
          refine ⟨by simpa using hne, recordsAux_lengths heq, ?_⟩
          simp only [recordsAux] at heq
          split at heq
          · exact absurd heq (by simp)
          · simp only [Except.ok.injEq, Prod.mk.injEq] at heq
            exact absurd heq.1.symm (by simpa using hne)
          · next result hrec =>
              split at heq
              · simp only [Except.ok.injEq, Prod.mk.injEq] at heq
                exact absurd heq.1.symm (by simpa using hne)
              · split at heq
                · exact absurd heq (by simp)
                · next rs2 rest2 heq2 =>
                    simp only [Except.ok.injEq, Prod.mk.injEq] at heq
                    rw [← heq.2]
                    have h1 := recordsAux_rest heq2
                    have h2 := record_rest_lt hrec
                    exact ⟨lt_of_le_of_lt h1.1 h2.1, h1.2.trans h2.2⟩

/-! Helper lemma about fn table. -/

theorem table_elim {texts : Str} {res : ParsedResult Md}
    (h : table texts = .ok (some res)) :
    ∃ hr ar rr, header texts = .ok (some hr) ∧
      align hr.rest (record_len hr.token) = .ok (some ar) ∧
      records ar.rest (record_len hr.token) = .ok (some rr) ∧
      res = ⟨Md.Table ⟨hr.token, ar.token, rr.token⟩, rr.rest⟩ := by
  simp only [table] at h
  split at h
  · exact absurd h (by simp)
  · exact absurd h (by simp)
  · next hr hheq =>
      split at h
      · exact absurd h (by simp)
      · exact absurd h (by simp)
      · next ar aheq =>
          split at h
          · exact absurd h (by simp)
          · exact absurd h (by simp)
          · next rr rheq =>
              simp only [Except.ok.injEq, Option.some.injEq] at h
              exact ⟨hr, ar, rr, hheq, aheq, rheq, h.symm⟩

/-! Helper lemmas about strict consumption by each grammar rule. -/

theorem header_rest_lt {texts : Str} {hr : ParsedResult Record}
    (h : header texts = .ok (some hr)) :
    hr.rest.length < texts.length ∧ hr.rest <:+ texts := by
  obtain ⟨cells, hrec, rfl⟩ := header_elim h
  exact record_rest_lt hrec

theorem align_rest_lt {texts : Str} {num : Nat} {ar : ParsedResult (List Align)}
    (h : align texts num = .ok (some ar)) :
    ar.rest.length < texts.length ∧ ar.rest <:+ texts := by
  obtain ⟨result, hrec, rfl, hlen⟩ := align_elim h
  simpa using record_rest_lt hrec

theorem table_rest_lt {texts : Str} {r : ParsedResult Md}
    (h : table texts = .ok (some r)) :
    r.rest.length < texts.length ∧ r.rest <:+ texts := by
  obtain ⟨hr, ar, rr, hh, ha, hrr, rfl⟩ := table_elim h
  have h1 := header_rest_lt hh
  have h2 := align_rest_lt ha
  have h3 := records_elim hrr
  exact ⟨lt_trans (lt_trans h3.2.2.1 h2.1) h1.1,
    (h3.2.2.2.trans h2.2).trans h1.2⟩

theorem heading_nil : heading ([] : Str) = .ok none := rfl

theorem heading_rest_lt {texts : Str} {r : ParsedResult Md}
    (h : heading texts = .ok (some r)) :
    r.rest.length < texts.length ∧ r.rest <:+ texts := by
  have hne : texts ≠ [] := by
    intro he
    subst he
    rw [heading_nil] at h
    exact absurd h (by simp)
  have hrest : r.rest = (split_first_pattern texts '\n').2 := by
    simp only [heading] at h
    split at h
    · exact absurd h (by simp)
    · split at h
      · exact absurd h (by simp)
      · simp only [Except.ok.injEq, Option.some.injEq] at h
        subst h
        rfl
  rw [hrest]
  exact ⟨split_snd_lt _ _ hne, split_snd_suffix _ _⟩

theorem sentence_nil : sentence ([] : Str) = .ok none := rfl

theorem sentence_rest_lt {texts : Str} {r : ParsedResult Md}
    (h : sentence texts = .ok (some r)) :
    r.rest.length < texts.length ∧ r.rest <:+ texts := by
  have hne : texts ≠ [] := by
    intro he
    subst he
    rw [sentence_nil] at h
    exact absurd h (by simp)
  have hrest : r.rest = (split_first_pattern texts '\n').2 := by
    simp only [sentence] at h
    simp only [Except.ok.injEq, Option.some.injEq] at h
    subst h
    rfl
  rw [hrest]
  exact ⟨split_snd_lt _ _ hne, split_snd_suffix _ _⟩

theorem tryParsers_rest_lt {texts : Str} {r : ParsedResult Md}
    (h : tryParsers texts = .ok (some r)) :
    r.rest.length < texts.length ∧ r.rest <:+ texts := by
  simp only [tryParsers] at h
  split at h
  · exact absurd h (by simp)
  · next heq =>
      simp only [Except.ok.injEq, Option.some.injEq] at h
      subst h
      exact table_rest_lt heq
  · split at h
    · exact absurd h (by simp)
    · next heq =>
        simp only [Except.ok.injEq, Option.some.injEq] at h
        subst h
        exact heading_rest_lt heq
    · exact sentence_rest_lt h

theorem parseAux_fuel {f1 : Nat} : ∀ {f2 : Nat} {texts : Str},
    texts.length < f1 → texts.length < f2 →
    parseAux f1 texts = parseAux f2 texts := by
  induction f1 with
  | zero =>
    intro f2 texts h1 h2
    exact absurd h1 (by omega)
  | succ f1 ih =>
    intro f2 texts h1 h2
    match f2, h2 with
    | f2 + 1, h2 =>
      simp only [parseAux]
      split
      · rfl
      · rfl
      · next r heq =>
          have hlt := tryParsers_rest_lt heq
          have hih : parseAux f1 r.rest = parseAux f2 r.rest := by
            apply ih
            · have := hlt.1
              omega
            · have := hlt.1
              omega
          rw [hih]

/-! Helper lemmas for the renderer. -/

theorem foldl_append_concat {β : Type} (f : β → Str) (g : Str → β → Str)
    (hg : ∀ h x, g h x = h ++ f x) :
    ∀ (l : List β) (init : Str),
      l.foldl g init = init ++ concatStrs (l.map f) := by
  intro l
  induction l with
  | nil => intro init; simp [concatStrs]
  | cons a l ih =>
    intro init
    simp only [List.foldl_cons, List.map_cons, concatStrs, ih, hg]
    simp [List.append_assoc]

theorem zip_take_len {α β : Type} :
    ∀ (l1 : List α) (l2 : List β), l1.zip l2 = (l1.take l2.length).zip l2 := by
  intro l1
  induction l1 with
  | nil => intro l2; simp
  | cons a l1 ih =>
    intro l2
    cases l2 with
    | nil => simp
    | cons b l2 => simp [List.zip_cons_cons, ih l2]

/-! The claims. -/

/-- C1 counterexample: on the table whose header, alignment row and first
body row have one cell while the next row has two, the parse succeeds with
one collected body row, but the returned rest is the empty remainder after
the mismatched row, not the start of the mismatched row as claimed — the
two-cell row has been consumed. -/
theorem C1_counterexample :
    table "|A|\n|-|\n|a|\n|x|y|\n".toList =
      .ok (some ⟨Md.Table ⟨⟨[⟨[Word.Normal "A".toList]⟩]⟩, [Align.Left],
        [⟨[⟨[Word.Normal "a".toList]⟩]⟩]⟩, []⟩) ∧
    ([] : Str) ≠ "|x|y|\n".toList :=
  ⟨rfl, by decide⟩

/-- C1 amended: when a body row parses but its cell count differs from the
column count, collection stops at that row AFTER consuming it — the loop's
returned rest is the rest of the mismatched row itself, and the row is not
included in the collected records. The first part states this for the loop
at any position and any fuel allowance; the second instantiates it through
fn records for a well-formed first row followed by a mismatched one. -/
theorem C1_amended_mismatch_row_consumed :
    (∀ (fuel : Nat) (texts : Str) (n : Nat) (result : ParsedResult (List Words)),
      record texts wordsClosure = .ok (some result) →
      result.token.length ≠ n →
      recordsAux (fuel + 1) texts n = .ok ([], result.rest)) ∧
    (∀ (texts : Str) (n : Nat) (r1 r2 : ParsedResult (List Words)),
      record texts wordsClosure = .ok (some r1) →
      r1.token.length = n →
      record r1.rest wordsClosure = .ok (some r2) →
      r2.token.length ≠ n →
      records texts n = .ok (some ⟨[⟨r1.token⟩], r2.rest⟩)) := by
  constructor
  · intro fuel texts n result hrec hne
    simp only [recordsAux, hrec]
    simp [hne]
  · intro texts n r1 r2 h1 hlen h2 hne
    have hlt := record_rest_lt h1
    obtain ⟨m, hm⟩ : ∃ m, texts.length = m + 1 :=
      ⟨texts.length - 1, by have := hlt.1; omega⟩
    have hfull : recordsAux (m + 1 + 1) texts n = .ok ([⟨r1.token⟩], r2.rest) := by
      simp only [recordsAux, h1, h2]
      simp [hlen, hne]
    unfold records
    rw [hm, hfull]
    rfl

/-- C1 amended witness: a concrete run of the loop through fn records with a
one-cell first row and a two-cell second row; the result collects only the
first row and its rest is the input remaining after the two-cell row. -/
theorem C1_amended_witness :
    records "|a|\n|x|y|\n".toList 1 =
      .ok (some ⟨[⟨[⟨[Word.Normal "a".toList]⟩]⟩], []⟩) :=
  C1_amended_mismatch_row_consumed.2 "|a|\n|x|y|\n".toList 1
    ⟨[⟨[Word.Normal "a".toList]⟩], "|x|y|\n".toList⟩
    ⟨[⟨[Word.Normal "x".toList]⟩, ⟨[Word.Normal "y".toList]⟩], []⟩
    rfl rfl rfl (by decide)

/-- C2 counterexample: the alignment row of this table has three cells and
its third cell fails to decode, yet the table parse succeeds, because the
failed cell is dropped and the two remaining valid cells match the header's
column count — refuting the claim that any invalid alignment cell makes the
table parse fail. -/
theorem C2_counterexample :
    align_parse "x".toList = .ok none ∧
    table "|A|B|\n|-|-|x|\n|a|b|\n".toList =
      .ok (some ⟨Md.Table ⟨⟨[⟨[Word.Normal "A".toList]⟩, ⟨[Word.Normal "B".toList]⟩]⟩,
        [Align.Left, Align.Left],
        [⟨[⟨[Word.Normal "a".toList]⟩, ⟨[Word.Normal "b".toList]⟩]⟩]⟩, []⟩) :=
  ⟨rfl, rfl⟩

/-- C2 amended: the alignment stage drops the cells that fail to decode and
succeeds exactly when the number of remaining validly decoded cells equals
the header's column count; an invalid cell therefore does not by itself fail
the parse, and a row whose total cell count differs from the header's can
still succeed. -/
theorem C2_amended_align_drops_invalid :
    (∀ (texts : Str) (num : Nat) (res : ParsedResult (List Align)),
      align texts num = .ok (some res) →
      ∃ result, record texts alignClosure = .ok (some result) ∧
        res.token = result.token.filterMap id ∧
        res.token.length = num ∧ res.rest = result.rest) ∧
    (∀ (texts : Str) (num : Nat) (result : ParsedResult (List (Option Align))),
      record texts alignClosure = .ok (some result) →
      (result.token.filterMap id).length = num →
      align texts num = .ok (some ⟨result.token.filterMap id, result.rest⟩)) := by
  constructor
  · intro texts num res h
    obtain ⟨result, hrec, rfl, hlen⟩ := align_elim h
    exact ⟨result, hrec, rfl, hlen, rfl⟩
  · intro texts num result hrec hlen
    exact align_intro hrec hlen

/-- C2 amended witness: the alignment row with cells hyphen, hyphen, invalid
against column count two decodes to the two Left alignments. -/
theorem C2_amended_witness :
    align "|-|-|x|\n".toList 2 = .ok (some ⟨[Align.Left, Align.Left], []⟩) :=
  C2_amended_align_drops_invalid.2 "|-|-|x|\n".toList 2
    ⟨[some Align.Left, some Align.Left, none], []⟩ rfl rfl

/-- C3: refuting totality — the row primitive panics on the line consisting
of the single pipe character (the slice text[1..0] is inverted), and the
panic propagates through fn table; likewise an alignment cell consisting of
the single colon character panics inside fn align_parse and propagates
through fn table. -/
theorem C3_row_and_align_panic :
    record "|".toList wordsClosure = .error () ∧
    table "|".toList = .error () ∧
    align_parse ":".toList = .error () ∧
    table "|A|\n|:|\n|a|\n".toList = .error () :=
  ⟨rfl, rfl, rfl, rfl⟩

/-- C4: the document-node renderer has no arm for the Table variant — it
falls into the panic arm — even though fn convert_table, which to_html never
calls, produces exactly the table markup the claim describes. -/
theorem C4_to_html_table_panics :
    to_html (Md.Table ⟨⟨[⟨[Word.Normal "A".toList]⟩, ⟨[Word.Normal "B".toList]⟩]⟩,
      [Align.Right, Align.Center],
      [⟨[⟨[Word.Normal "a".toList]⟩, ⟨[Word.Normal "b".toList]⟩]⟩]⟩) = .error () ∧
    convert_table ⟨⟨[⟨[Word.Normal "A".toList]⟩, ⟨[Word.Normal "B".toList]⟩]⟩,
      [Align.Right, Align.Center],
      [⟨[⟨[Word.Normal "a".toList]⟩, ⟨[Word.Normal "b".toList]⟩]⟩]⟩ =
      ("<table>\n<tr><th>A</th><th>B</th></tr>\n" ++
        "<tr><td align=\"right\">a</td><td align=\"center\">b</td></tr>\n" ++
        "</table>\n").toList :=
  ⟨rfl, by simp [convert_table, convert_header, convert_records, convert_record,
    convert_words]⟩

/-- C5: every successfully parsed table satisfies the column-count
invariant — the alignment list is as long as the header row, and every
collected body row has exactly the header's cell count. -/
theorem C5_table_column_invariant (texts : Str) (res : ParsedResult Md)
    (t : Table) (hres : table texts = .ok (some res))
    (ht : res.token = Md.Table t) :
    t.align.length = record_len t.header ∧
    ∀ rec ∈ t.records, record_len rec = record_len t.header := by
  obtain ⟨hr, ar, rr, hh, ha, hrr, rfl⟩ := table_elim hres
  simp only at ht
  obtain rfl : t = ⟨hr.token, ar.token, rr.token⟩ := by
    cases ht
    rfl
  obtain ⟨result, hrec, har, hlen⟩ := align_elim ha
  have hrecs := records_elim hrr
  constructor
  · rw [har]
    exact hlen
  · intro rec hmem
    have := hrecs.2.1 rec hmem
    cases rec
    simpa [record_len] using this

/-- C5 witness: the invariant evaluated on the one-column table with header
cell A, alignment hyphen, and single body row a. -/
theorem C5_witness :
    ([Align.Left] : List Align).length =
      record_len ⟨[⟨[Word.Normal "A".toList]⟩]⟩ ∧
    ∀ rec ∈ [(⟨[⟨[Word.Normal "a".toList]⟩]⟩ : Record)],
      record_len rec = record_len ⟨[⟨[Word.Normal "A".toList]⟩]⟩ :=
  C5_table_column_invariant "|A|\n|-|\n|a|\n".toList
    ⟨Md.Table ⟨⟨[⟨[Word.Normal "A".toList]⟩]⟩, [Align.Left],
      [⟨[⟨[Word.Normal "a".toList]⟩]⟩]⟩, []⟩
    ⟨⟨[⟨[Word.Normal "A".toList]⟩]⟩, [Align.Left],
      [⟨[⟨[Word.Normal "a".toList]⟩]⟩]⟩
    rfl rfl

/-- C6: the alignment-token decoder maps the pure hyphen run to Left, a
trailing colon to Right, a leading colon to Left and colons on both sides to
Center, and rejects tokens whose core is empty or holds a non-hyphen
character — except that the single-colon token, whose core is empty, makes
the decoder panic through the inverted slice text[1..0] instead of failing,
diverging from the claim at that one input. -/
theorem C6_align_parse_mapping :
    align_parse "---".toList = .ok (some Align.Left) ∧
    align_parse "---:".toList = .ok (some Align.Right) ∧
    align_parse ":---".toList = .ok (some Align.Left) ∧
    align_parse ":---:".toList = .ok (some Align.Center) ∧
    align_parse ":-b:".toList = .ok none ∧
    align_parse "".toList = .ok none ∧
    align_parse "::".toList = .ok none ∧
    align_parse ":".toList = .error () :=
  ⟨rfl, rfl, rfl, rfl, rfl, rfl, rfl, rfl⟩

/-- C7: fn space succeeds exactly on texts starting with one literal space,
returning the remainder after that space with any further leading whitespace
stripped, and returns no match on every other text. -/
theorem C7_space_spec :
    (∀ rest : Str, space (' ' :: rest) = some (trimStart rest)) ∧
    (∀ text : Str, starts_with text [' '] = false → space text = none) :=
  ⟨fun rest => by cases rest <;> rfl,
   fun text h => by simp [space, consume, h]⟩

/-- C7 witness: fn space on a text with a leading space and further
whitespace, and on a text with no leading space. -/
theorem C7_witness :
    space " \t x".toList = some "x".toList ∧ space "x".toList = none :=
  ⟨C7_space_spec.1 "\t x".toList, C7_space_spec.2 "x".toList rfl⟩

/-- C8: every grammar rule the document segmenter dispatches to — fn table,
the heading rule, the sentence rule, and their first-match combination —
returns on success a rest that is a strictly shorter suffix of its input, so
the segmenter loop spends its fuel allowance on strictly shrinking input and
its result does not depend on the exact allowance once it exceeds the input
length: parsing terminates on every finite input. -/
theorem C8_rules_strictly_consume :
    (∀ (texts : Str) (r : ParsedResult Md), table texts = .ok (some r) →
      r.rest.length < texts.length ∧ r.rest <:+ texts) ∧
    (∀ (texts : Str) (r : ParsedResult Md), heading texts = .ok (some r) →
      r.rest.length < texts.length ∧ r.rest <:+ texts) ∧
    (∀ (texts : Str) (r : ParsedResult Md), sentence texts = .ok (some r) →
      r.rest.length < texts.length ∧ r.rest <:+ texts) ∧
    (∀ (texts : Str) (r : ParsedResult Md), tryParsers texts = .ok (some r) →
      r.rest.length < texts.length ∧ r.rest <:+ texts) ∧
    (∀ (f1 f2 : Nat) (texts : Str), texts.length < f1 → texts.length < f2 →
      parseAux f1 texts = parseAux f2 texts) :=
  ⟨fun _ _ h => table_rest_lt h,
   fun _ _ h => heading_rest_lt h,
   fun _ _ h => sentence_rest_lt h,
   fun _ _ h => tryParsers_rest_lt h,
   fun _ _ _ h1 h2 => parseAux_fuel h1 h2⟩

/-- C8 witness: the sentence rule strictly consumes the one-character text,
and the segmenter loop computes the same result under fuel allowances two
and nine on that text. -/
theorem C8_witness :
    ((⟨Md.Sentence [Word.Normal "x".toList], []⟩ : ParsedResult Md).rest.length
        < "x".toList.length ∧
      (⟨Md.Sentence [Word.Normal "x".toList], []⟩ : ParsedResult Md).rest <:+
        "x".toList) ∧
    parseAux 2 "x".toList = parseAux 9 "x".toList :=
  ⟨C8_rules_strictly_consume.2.2.1 "x".toList
      ⟨Md.Sentence [Word.Normal "x".toList], []⟩ rfl,
   C8_rules_strictly_consume.2.2.2.2 2 9 "x".toList (by decide) (by decide)⟩

/-- C9: the body-row cell renderer emits one td fragment per zipped
cell-alignment pair, hence exactly the minimum of the record's cell count
and the alignment count; cells beyond the alignment list are dropped, so the
rendering equals that of the record truncated to the alignment count. -/
theorem C9_convert_record_min (record : Record) (aligns : List Align) :
    convert_record record aligns = concatStrs (tdCells record aligns) ∧
    (tdCells record aligns).length = min record.val.length aligns.length ∧
    convert_record record aligns =
      convert_record ⟨record.val.take aligns.length⟩ aligns := by
  refine ⟨?_, ?_, ?_⟩
  · rw [convert_record, tdCells]
    rw [foldl_append_concat
      (fun x => "<td align=\"".toList ++ (match x.2 with
        | Align.Right => "right".toList
        | Align.Center => "center".toList
        | Align.Left => "left".toList) ++ "\">".toList
        ++ convert_words x.1.val ++ "</td>".toList)]
    · simp
    · intro h x
      cases hx : x.2 <;> simp [hx, List.append_assoc]
  · simp [tdCells]
  · rw [convert_record, convert_record]
    simp only []
    rw [zip_take_len record.val aligns]

/-- C10: fn consume with the empty pattern succeeds on every text and
returns the text unchanged. -/
theorem C10_consume_empty_pattern :
    ∀ text : Str, consume text [] = some text :=
  fun text => by cases text <;> rfl

end MdApp
